import Mathlib

/-!
Verification of the LegalTalk statute identification and fusion pipeline.

This file is a shallow embedding of the core statute pipeline of the
LegalTalk repository: the citation normalizer (`src/utils.py`), the regex
citation extractor (`src/regex_mapper.py`), the lexical similarity mapper
(`src/bert_mapper.py`) and the fusion reranker (`src/graph_mapper.py`),
together with proofs and refutations of the specified properties.

Python floats are modelled by `ℚ` (every arithmetic step of the pipeline —
division of a value by the list maximum and rescaling by 100 — is exact in
IEEE double for the facts proved here, in particular `x / x = 1`).
Python dicts are modelled by association lists in insertion order with
last-write-wins update; Python's `sorted(..., reverse=True)` (a stable
sort) is modelled by `List.insertionSort` with the corresponding total
preorder, which yields the unique stable descending sort.  The iteration
order of the Python *set* union in `graph_based_rerank` is unspecified in
the source; it is determinized here as first-seen order (regex keys first),
which the design notes of the project single out as the intended
determinization — no theorem below depends on the order among exact ties.
-/

namespace LegalTalk

/-! ## Character-level helpers (ASCII semantics of the Python string methods) -/

/-- Python `str.upper()` on ASCII characters (97–122 are `'a'`–`'z'`). -/
def pyUpper (c : Char) : Char :=
  if 97 ≤ c.toNat ∧ c.toNat ≤ 122 then Char.ofNat (c.toNat - 32) else c

/-- Python `str.lower()` on ASCII characters (65–90 are `'A'`–`'Z'`). -/
def pyLower (c : Char) : Char :=
  if 65 ≤ c.toNat ∧ c.toNat ≤ 90 then Char.ofNat (c.toNat + 32) else c

/-- Python whitespace: the class stripped by `str.strip()` and matched by `\s`. -/
def isPySpace (c : Char) : Bool :=
  c = ' ' || c = '\t' || c = '\n' || c = '\r' || c = '\x0b' || c = '\x0c'

/-- The regex class `[0-9]` (code points 48–57). -/
def isDigitChar (c : Char) : Bool := 48 ≤ c.toNat && c.toNat ≤ 57

/-- The regex class `[A-Z]` (code points 65–90). -/
def isUpperAZ (c : Char) : Bool := 65 ≤ c.toNat && c.toNat ≤ 90

/-- The regex class `[a-z]` (code points 97–122). -/
def isLowerAZ (c : Char) : Bool := 97 ≤ c.toNat && c.toNat ≤ 122

/-- The regex class `[A-Za-z]`. -/
def isAlphaChar (c : Char) : Bool := isUpperAZ c || isLowerAZ c

/-- The regex class `[0-9A-Za-z]`. -/
def isAlnumChar (c : Char) : Bool := isAlphaChar c || isDigitChar c

/-- The regex class `\w` = `[A-Za-z0-9_]` (word characters, for `\b`). -/
def isWordChar (c : Char) : Bool := isAlnumChar c || c = '_'

/-- The class `[0-9A-Z_]` kept by `re.sub(r'[^0-9A-Z\_]', '', s)` in `utils.py`. -/
def isKeptChar (c : Char) : Bool := isDigitChar c || isUpperAZ c || c = '_'

/-- Drop characters satisfying `p` from both ends of a list
(Python `str.strip` with the corresponding character set). -/
def stripEnds (p : Char → Bool) (l : List Char) : List Char :=
  ((l.dropWhile p).reverse.dropWhile p).reverse

/-! ## `src/utils.py` — the citation normalizer `normalize_to_ipc` -/

/-- `re.sub(r'^(SECTION|SEC|S)\.?\s*', '', s)`: strip a leading section
keyword (alternatives tried in the pattern's order), an optional dot, and
following whitespace.  The optional parts never fail, so the first
alternative that is a literal prefix wins. -/
def stripSectionWord (l : List Char) : List Char :=
  let rest? : Option (List Char) :=
    if ("SECTION".data).isPrefixOf l then some (l.drop 7)
    else if ("SEC".data).isPrefixOf l then some (l.drop 3)
    else if ("S".data).isPrefixOf l then some (l.drop 1)
    else none
  match rest? with
  | none => l
  | some r =>
    let r1 := match r with
      | '.' :: r2 => r2
      | _ => r
    r1.dropWhile isPySpace

/-- `s.startswith("IPC_") or s.startswith("IPC-") or s.startswith("IPC ")`. -/
def hasIpcMark (l : List Char) : Bool :=
  ("IPC_".data).isPrefixOf l || ("IPC-".data).isPrefixOf l || ("IPC ".data).isPrefixOf l

/-- `s.replace("IPC", "")`: remove every occurrence of `IPC`, left to right. -/
def removeIPC : List Char → List Char
  | 'I' :: 'P' :: 'C' :: rest => removeIPC rest
  | c :: rest => c :: removeIPC rest
  | [] => []

/-- Numeric value of a digit string (for the year test). -/
def digitsVal (l : List Char) : Nat :=
  l.foldl (fun a c => a * 10 + (c.toNat - 48)) 0

/-- `re.fullmatch(r'(\d{4})', s)` and `1700 <= int(s) <= 2100`:
a bare four-digit token in the calendar-year range. -/
def isYearToken (l : List Char) : Bool :=
  l.length = 4 && l.all isDigitChar &&
    decide (1700 ≤ digitsVal l) && decide (digitsVal l ≤ 2100)

/-- Worker for `joinParens`; the fuel only drives structural recursion and
is initialized to the list length, which each step strictly decreases. -/
def joinParensGo : Nat → List Char → List Char
  | 0, l => l
  | _ + 1, [] => []
  | fuel + 1, ')' :: rest =>
    match rest.dropWhile isPySpace with
    | '(' :: r2 => '_' :: joinParensGo fuel r2
    | _ => ')' :: joinParensGo fuel rest
  | fuel + 1, c :: rest => c :: joinParensGo fuel rest

/-- `re.sub(r'\)\s*\(', '_', s)`: each `)`, optional whitespace, `(`
boundary becomes a single underscore. -/
def joinParens (l : List Char) : List Char := joinParensGo l.length l

/-- Worker for `squeezeUnders`: the flag records whether the previous kept
position lay inside a run of underscores. -/
def squeezeGo : Bool → List Char → List Char
  | _, [] => []
  | prevU, c :: rest =>
    if c = '_' then
      if prevU then squeezeGo true rest else '_' :: squeezeGo true rest
    else c :: squeezeGo false rest

/-- `re.sub(r'_+', '_', s)`: collapse each run of underscores to one. -/
def squeezeUnders (l : List Char) : List Char := squeezeGo false l

/-- `s2.lstrip('IPC_')`: drop leading characters drawn from `{I, P, C, _}`. -/
def lstripIpcChars (l : List Char) : List Char :=
  l.dropWhile (fun c => c = 'I' || c = 'P' || c = 'C' || c = '_')

/-- `'-'`→`'_'` and `' '`→`'_'` (`s.replace('-', '_').replace(' ', '_')`). -/
def dashSpaceToUnder (c : Char) : Char :=
  if c = '-' then '_' else if c = ' ' then '_' else c

/-- `'('`→`'_'` and `')'`→`'_'` (`s.replace('(', '_').replace(')', '_')`). -/
def parenToUnder (c : Char) : Char :=
  if c = '(' then '_' else if c = ')' then '_' else c

/-- `normalize_to_ipc` of `src/utils.py`: convert a raw citation token to a
canonical `IPC_…` id, or `none` for empty / non-statute input.
(The source line `s = s.replace(')(', ')(')` replaces a string by itself and
is the identity, so it has no counterpart here.) -/
def normalize_to_ipc (raw : String) : Option String :=
  if raw = "" then none
  else
    let s0 := stripEnds isPySpace (raw.data.map pyUpper)
    let s1 := stripSectionWord s0
    if hasIpcMark s1 then
      let s2 := (s1.map dashSpaceToUnder).filter isKeptChar
      if ("IPC_".data).isPrefixOf s2 then some (String.mk s2)
      else some (String.mk ("IPC_".data ++ lstripIpcChars s2))
    else
      let s3 := stripEnds (fun c => (" :,.-".data).contains c) (removeIPC s1)
      if isYearToken s3 then none
      else
        let s4 := (joinParens s3).map parenToUnder
        let s5 := stripEnds (fun c => c = '_') (squeezeUnders (s4.filter isKeptChar))
        let s6 := stripEnds (fun c => c = '_') s5
        if s6 = [] then none
        else some (String.mk ('I' :: 'P' :: 'C' :: '_' :: s6))

/-! ## `src/regex_mapper.py` — the regex citation extractor

The two patterns are

  `_SECTION_PATTERN = \b(?:section|sections|sec|s\.?|§)\s*G` and
  `_IPC_PATTERN     = \bG\s*(?:ipc|indian\s+penal\s+code)\b`,

both `re.IGNORECASE`, where `G` is the capture group
`([0-9]{1,3}[A-Za-z]?(?:\([0-9A-Za-z]+\))?(?:[-][A-Za-z])?)`.
They are embedded as backtracking matchers: every optional / counted piece
contributes its candidate splits in the engine's greedy priority order, and
the first candidate whose continuation succeeds wins.  `\s*` pieces that are
followed by a token starting with a non-space character can only match
maximally, so they are embedded by `dropWhile`. -/

/-- Word-ness of the character left of the current position (`none` at the
start of the text counts as non-word). -/
def isWordOpt : Option Char → Bool
  | some c => isWordChar c
  | none => false

/-- `\b` between the previous character and the character `c` at the
current position. -/
def atBoundary (prev : Option Char) (c : Char) : Bool :=
  isWordOpt prev != isWordChar c

/-- `\b` directly after a match whose last character is `lastc`. -/
def boundaryAfter (lastc : Char) (rest : List Char) : Bool :=
  match rest with
  | [] => isWordChar lastc
  | c :: _ => isWordChar lastc != isWordChar c

/-- Case-insensitive literal match: `lit` is given lowercased; returns the
consumed original characters and the remainder. -/
def matchLitCI : List Char → List Char → Option (List Char × List Char)
  | [], l => some ([], l)
  | _ :: _, [] => none
  | d :: ds, c :: cs =>
    if pyLower c = d then (matchLitCI ds cs).map (fun p => (c :: p.1, p.2)) else none

/-- Candidates of `[A-Za-z]?` (greedy: take the letter first). -/
def letterOpts (l : List Char) : List (List Char × List Char) :=
  match l with
  | c :: rest => if isAlphaChar c then [([c], rest), ([], l)] else [([], l)]
  | [] => [([], l)]

/-- Candidates of `(?:\([0-9A-Za-z]+\))?` (greedy; the inner `+` must run to
the closing parenthesis, so it has a single viable extent). -/
def parenOpts (l : List Char) : List (List Char × List Char) :=
  match l with
  | '(' :: rest =>
    let inner := rest.takeWhile isAlnumChar
    let after := rest.dropWhile isAlnumChar
    match inner, after with
    | _ :: _, ')' :: r2 => [('(' :: (inner ++ [')']), r2), ([], l)]
    | _, _ => [([], l)]
  | _ => [([], l)]

/-- Candidates of `(?:[-][A-Za-z])?` (greedy). -/
def dashOpts (l : List Char) : List (List Char × List Char) :=
  match l with
  | '-' :: c :: rest => if isAlphaChar c then [(['-', c], rest), ([], l)] else [([], l)]
  | _ => [([], l)]

/-- All candidate (captured text, remainder) splits of the capture group,
in backtracking priority order: digit count from `min 3 run` down to `1`,
then the three optional pieces greedily. -/
def groupOpts (l : List Char) : List (List Char × List Char) :=
  let k := min 3 (l.takeWhile isDigitChar).length
  (List.range k).flatMap (fun i =>
    let d := k - i
    let ds := l.take d
    let r1 := l.drop d
    (letterOpts r1).flatMap (fun lo =>
      (parenOpts lo.2).flatMap (fun po =>
        (dashOpts po.2).map (fun dh =>
          (ds ++ (lo.1 ++ (po.1 ++ dh.1)), dh.2)))))

/-- The keyword alternatives of `_SECTION_PATTERN`, lowercased, in the
pattern's alternation order, with `s\.?` expanded greedily. -/
def sectionWords : List (List Char) :=
  ["section".data, "sections".data, "sec".data, "s.".data, "s".data, "§".data]

/-- Attempt `_SECTION_PATTERN` at the current position.  On success returns
(captured group, remainder after the match, last consumed character). -/
def tryMatchSection (prev : Option Char) (l : List Char) :
    Option (List Char × List Char × Char) :=
  match l with
  | [] => none
  | c :: _ =>
    if atBoundary prev c then
      (sectionWords.filterMap (fun w =>
        (matchLitCI w l).bind (fun p =>
          let r2 := p.2.dropWhile isPySpace
          ((groupOpts r2).head?).map (fun g => (g.1, g.2, g.1.getLastD c))))).head?
    else none

/-- The domain alternation `(?:ipc|indian\s+penal\s+code)\b` (the `\s+`
pieces are followed by letters, so they match maximally and must be
non-empty). -/
def tryDomainWord (l : List Char) : Option (List Char × Char) :=
  let viaIpc : Option (List Char × Char) :=
    (matchLitCI "ipc".data l).bind (fun p =>
      if boundaryAfter (p.1.getLastD 'c') p.2 then some (p.2, p.1.getLastD 'c') else none)
  match viaIpc with
  | some r => some r
  | none =>
    (matchLitCI "indian".data l).bind (fun p1 =>
      if p1.2.takeWhile isPySpace = [] then none
      else
        (matchLitCI "penal".data (p1.2.dropWhile isPySpace)).bind (fun p2 =>
          if p2.2.takeWhile isPySpace = [] then none
          else
            (matchLitCI "code".data (p2.2.dropWhile isPySpace)).bind (fun p3 =>
              if boundaryAfter (p3.1.getLastD 'e') p3.2 then
                some (p3.2, p3.1.getLastD 'e')
              else none)))

/-- Attempt `_IPC_PATTERN` at the current position: first group candidate
(in greedy priority order) whose continuation `\s*(?:ipc|…)\b` succeeds. -/
def tryMatchIpc (prev : Option Char) (l : List Char) :
    Option (List Char × List Char × Char) :=
  match l with
  | [] => none
  | c :: _ =>
    if atBoundary prev c then
      ((groupOpts l).filterMap (fun g =>
        (tryDomainWord (g.2.dropWhile isPySpace)).map
          (fun q => (g.1, q.1, q.2)))).head?
    else none

/-- `re.finditer`: scan left to right, restart after each (non-empty)
match, advance one character after a failed attempt.  Every match of the
two patterns consumes at least one character, so fuel `length + 1` is never
exhausted. -/
def finditerGo (tryAt : Option Char → List Char → Option (List Char × List Char × Char)) :
    Nat → Option Char → List Char → List (List Char)
  | 0, _, _ => []
  | _ + 1, _, [] => []
  | fuel + 1, prev, c :: rest =>
    match tryAt prev (c :: rest) with
    | some (g, r, lastc) => g :: finditerGo tryAt fuel (some lastc) r
    | none => finditerGo tryAt fuel (some c) rest

/-- All captured groups of a pattern over a text. -/
def findAll (tryAt : Option Char → List Char → Option (List Char × List Char × Char))
    (l : List Char) : List (List Char) :=
  finditerGo tryAt (l.length + 1) none l

/-- Descending-count order used by `sorted(..., reverse=True)` on the
count table (the sort is stable, so ties keep first-seen order). -/
def descCount (x y : String × Nat × String) : Prop := y.2.1 ≤ x.2.1

instance : DecidableRel descCount := fun x y => inferInstanceAs (Decidable (y.2.1 ≤ x.2.1))

instance : IsTotal (String × Nat × String) descCount := ⟨fun a b => Nat.le_total b.2.1 a.2.1⟩

instance : IsTrans (String × Nat × String) descCount := ⟨fun _ _ _ h1 h2 => le_trans h2 h1⟩

/-- `RegexHit` of `src/regex_mapper.py`. -/
structure RegexHit where
  statute_id : String
  mention : String
  count : Nat
deriving DecidableEq

/-- One step of the counting loop body: create the entry with count 0 and
first-seen mention if absent, then increment its count. -/
def countsAdd (counts : List (String × Nat × String)) (canonical raw : String) :
    List (String × Nat × String) :=
  if counts.any (fun e => e.1 == canonical) then
    counts.map (fun e => if e.1 == canonical then (e.1, e.2.1 + 1, e.2.2) else e)
  else counts ++ [(canonical, 1, raw)]

/-- `map_statutes_with_regex`: scan both patterns, normalize every captured
group (discarding unmappable ones), accumulate counts per canonical id, and
sort by descending count (stably, as Python's `sorted` does). -/
def map_statutes_with_regex (text : String) : List RegexHit :=
  let raws := findAll tryMatchSection text.data ++ findAll tryMatchIpc text.data
  let canon := raws.filterMap (fun g =>
    (normalize_to_ipc (String.mk g)).map (fun cid => (cid, String.mk g)))
  let counts := canon.foldl (fun acc p => countsAdd acc p.1 p.2) []
  let ranked := List.insertionSort descCount counts
  ranked.map (fun e => ⟨e.1, e.2.2, e.2.1⟩)

/-- Python `max` over a non-empty list of naturals (`0` is never used: the
callers guard the empty case first). -/
def pyMaxNat : List Nat → Nat
  | [] => 0
  | x :: xs => xs.foldl max x

/-- Python `max` over a non-empty list of rationals. -/
def pyMaxQ : List ℚ → ℚ
  | [] => 0
  | x :: xs => xs.foldl max x

/-- Python dict update `d[k] = v`: overwrite in place, else append. -/
def dictInsert (d : List (String × ℚ)) (k : String) (v : ℚ) : List (String × ℚ) :=
  if d.any (fun e => e.1 == k) then
    d.map (fun e => if e.1 == k then (e.1, v) else e)
  else d ++ [(k, v)]

/-- A Python dict comprehension over a list of key-value pairs. -/
def dictOfList (l : List (String × ℚ)) : List (String × ℚ) :=
  l.foldl (fun d p => dictInsert d p.1 p.2) []

/-- Python `d.get(k, dflt)`. -/
def dictGet (d : List (String × ℚ)) (k : String) (dflt : ℚ) : ℚ :=
  match d.find? (fun e => e.1 == k) with
  | some e => e.2
  | none => dflt

/-- `regex_probability_map`: divide each count by the maximum count; empty
input or an all-zero maximum yields the empty map. -/
def regex_probability_map (hits : List RegexHit) : List (String × ℚ) :=
  if hits = [] then []
  else
    let maxCount := pyMaxNat (hits.map RegexHit.count)
    if maxCount = 0 then []
    else dictOfList (hits.map (fun h => (h.statute_id, (h.count : ℚ) / (maxCount : ℚ))))

/-! ## `src/bert_mapper.py` — the lexical similarity mapper -/

/-- The stop-word set `_STOP`. -/
def stopWords : List String :=
  ["the", "a", "an", "and", "or", "to", "of", "in", "is", "for", "with", "under", "on"]

/-- Worker for `wordRuns`; the fuel only drives structural recursion and is
initialized to the list length, which each step strictly decreases. -/
def wordRunsGo : Nat → List Char → List (List Char)
  | 0, _ => []
  | _ + 1, [] => []
  | fuel + 1, c :: rest =>
    if isWordChar c then
      (c :: rest.takeWhile isWordChar) :: wordRunsGo fuel (rest.dropWhile isWordChar)
    else wordRunsGo fuel rest

/-- Maximal runs of `_WORD_RE = [A-Za-z0-9_]+` (`findall`). -/
def wordRuns (l : List Char) : List (List Char) := wordRunsGo l.length l

/-- `_tokenize`: word runs of the lowercased text, lowercased again, with
stop words removed. -/
def _tokenize (text : String) : List String :=
  ((wordRuns (text.data.map pyLower)).map (fun r => String.mk (r.map pyLower))).filter
    (fun t => !(stopWords.contains t))

/-- `_jaccard`: intersection over union of two token sets; `0` when either
set is empty (and on a zero union). -/
def _jaccard (a b : Finset String) : ℚ :=
  if a = ∅ ∨ b = ∅ then 0
  else
    let inter := (a ∩ b).card
    let uni := (a ∪ b).card
    if uni = 0 then 0 else (inter : ℚ) / (uni : ℚ)

/-- A row of the statute catalog CSV after `fillna("")`: the columns
consumed by `BertSectionMapper.__init__`. -/
structure CsvRow where
  id : String
  Offense : String
  Description : String
deriving DecidableEq

/-- A catalog entry as built by `BertSectionMapper.__init__`: the row id
and title plus the derived `lookup_text` and `token_set` columns. -/
structure CatalogEntry where
  id : String
  Offense : String
  lookup_text : String
  token_set : Finset String
deriving DecidableEq

/-- `BertSectionMapper.__init__`: build `lookup_text` as
`Offense + " " + Description + " " + id` and cache its token set.  No
validation of any kind (in particular no duplicate-id check) is performed;
every row yields exactly one catalog entry. -/
def bertInit (rows : List CsvRow) : List CatalogEntry :=
  rows.map (fun r =>
    let lt := r.Offense ++ " " ++ r.Description ++ " " ++ r.id
    ⟨r.id, r.Offense, lt, (_tokenize lt).toFinset⟩)

/-- `BertMatch` of `src/bert_mapper.py`. -/
structure BertMatch where
  statute_id : String
  section_title : String
  score : ℚ
deriving DecidableEq

/-- Descending-score order used by `scored.sort(..., reverse=True)`. -/
def descScore (x y : BertMatch) : Prop := y.score ≤ x.score

instance : DecidableRel descScore := fun x y => inferInstanceAs (Decidable (y.score ≤ x.score))

instance : IsTotal BertMatch descScore := ⟨fun a b => le_total b.score a.score⟩

instance : IsTrans BertMatch descScore := ⟨fun _ _ _ h1 h2 => le_trans h2 h1⟩

/-- `BertSectionMapper.map_sections`: score every catalog entry against the
query token set, keep strictly positive scores, sort by descending score
(stable) and truncate to `top_k` (the source's default is 20). -/
def map_sections (catalog : List CatalogEntry) (case_text : String) (top_k : Nat) :
    List BertMatch :=
  let query := (_tokenize case_text).toFinset
  let scored := catalog.filterMap (fun row =>
    let score := _jaccard query row.token_set
    if 0 < score then some (⟨row.id, row.Offense, score⟩ : BertMatch) else none)
  (List.insertionSort descScore scored).take top_k

/-- `bert_probability_map`: divide each score by the maximum score; empty
input or a non-positive maximum yields the empty map. -/
def bert_probability_map (matchList : List BertMatch) : List (String × ℚ) :=
  if matchList = [] then []
  else
    let maxScore := pyMaxQ (matchList.map BertMatch.score)
    if maxScore ≤ 0 then []
    else dictOfList (matchList.map (fun m => (m.statute_id, m.score / maxScore)))

/-! ## `src/graph_mapper.py` — the fusion reranker -/

/-- Descending-probability order used by `sorted(fused.items(), ..., reverse=True)`. -/
def descQ (x y : String × ℚ) : Prop := y.2 ≤ x.2

instance : DecidableRel descQ := fun x y => inferInstanceAs (Decidable (y.2 ≤ x.2))

instance : IsTotal (String × ℚ) descQ := ⟨fun a b => le_total b.2 a.2⟩

instance : IsTrans (String × ℚ) descQ := ⟨fun _ _ _ h1 h2 => le_trans h2 h1⟩

/-- `GraphResult` of `src/graph_mapper.py`. -/
structure GraphResult where
  statute_id : String
  probability : ℚ
deriving DecidableEq

/-- `set(regex_probs) | set(bert_probs)`, determinized to first-seen order
(Python's set iteration order is unspecified; no theorem below depends on
this order among ties). -/
def allNodes (regex_probs bert_probs : List (String × ℚ)) : List String :=
  (regex_probs.map Prod.fst ++ bert_probs.map Prod.fst).dedup

/-- The fused vote of a node: `w1 * regex_probs.get(node, 0.0) +
w2 * bert_probs.get(node, 0.0)`; the source instantiates the weights with
`0.6` and `0.4`. -/
def fused_score (w1 w2 : ℚ) (regex_probs bert_probs : List (String × ℚ))
    (node : String) : ℚ :=
  w1 * dictGet regex_probs node 0 + w2 * dictGet bert_probs node 0

/-- `graph_based_rerank`: fuse the two probability maps over the union of
their ids with weights `0.6` / `0.4`, guard a zero maximum
(`max(fused.values()) or 1.0`), sort descending, truncate to `top_k`
(the source's default is 10) and rescale to a 0–100 percentage. -/
def graph_based_rerank (regex_probs bert_probs : List (String × ℚ)) (top_k : Nat) :
    List GraphResult :=
  let fused := (allNodes regex_probs bert_probs).map
    (fun node => (node, fused_score 0.6 0.4 regex_probs bert_probs node))
  if fused = [] then []
  else
    let m := pyMaxQ (fused.map Prod.snd)
    let max_score := if m = 0 then 1 else m
    let ranked := (List.insertionSort descQ fused).take top_k
    ranked.map (fun kv => ⟨kv.1, kv.2 / max_score * 100⟩)

/-- The example case text of the specification. -/
def c2text : String :=
  "The accused was charged under Section 420 IPC. Section 420 IPC. Dishonestly induced."

/-- The invariant claimed for every probability map produced inside the
pipeline: empty, or all values in `(0, 1]` with at least one value exactly
1. -/
def probInvariant (m : List (String × ℚ)) : Prop :=
  m = [] ∨ ((∀ p ∈ m, 0 < p.2 ∧ p.2 ≤ 1) ∧ ∃ p ∈ m, p.2 = 1)

/-! ## Shared lemmas about the Python `max`, dict and `sorted` models -/

theorem foldl_max_self {α} [LinearOrder α] (a : α) (l : List α) :
    a ≤ l.foldl max a := by
  induction l generalizing a with
  | nil => exact le_refl a
  | cons x xs ih => exact le_trans (le_max_left a x) (ih (max a x))

theorem foldl_max_le_of_mem {α} [LinearOrder α] :
    ∀ (l : List α) (a x : α), x ∈ l → x ≤ l.foldl max a
  | y :: ys, a, x, hx => by
    rcases List.mem_cons.mp hx with h | h
    · subst h
      exact le_trans (le_max_right a x) (foldl_max_self (max a x) ys)
    · exact foldl_max_le_of_mem ys (max a y) x h

theorem foldl_max_mem {α} [LinearOrder α] (l : List α) (a : α) :
    l.foldl max a = a ∨ l.foldl max a ∈ l := by
  induction l generalizing a with
  | nil => exact Or.inl rfl
  | cons x xs ih =>
    rcases ih (max a x) with h | h
    · rcases max_choice a x with h2 | h2 <;> rw [List.foldl_cons, h, h2]
      · exact Or.inl rfl
      · exact Or.inr (List.mem_cons_self x xs)
    · exact Or.inr (List.mem_cons_of_mem x h)

theorem pyMaxQ_mem (l : List ℚ) (h : l ≠ []) : pyMaxQ l ∈ l := by
  match l with
  | [] => exact absurd rfl h
  | x :: xs =>
    rcases foldl_max_mem xs x with h1 | h1
    · rw [pyMaxQ, h1]; exact List.mem_cons_self x xs
    · exact List.mem_cons_of_mem x h1

theorem le_pyMaxQ (l : List ℚ) (x : ℚ) (hx : x ∈ l) : x ≤ pyMaxQ l := by
  match l with
  | [] => cases hx
  | y :: ys =>
    rcases List.mem_cons.mp hx with h | h
    · rw [h, pyMaxQ]; exact foldl_max_self y ys
    · exact foldl_max_le_of_mem ys y x h

theorem pyMaxNat_mem (l : List Nat) (h : l ≠ []) : pyMaxNat l ∈ l := by
  match l with
  | [] => exact absurd rfl h
  | x :: xs =>
    rcases foldl_max_mem xs x with h1 | h1
    · rw [pyMaxNat, h1]; exact List.mem_cons_self x xs
    · exact List.mem_cons_of_mem x h1

theorem le_pyMaxNat (l : List Nat) (x : Nat) (hx : x ∈ l) : x ≤ pyMaxNat l := by
  match l with
  | [] => cases hx
  | y :: ys =>
    rcases List.mem_cons.mp hx with h | h
    · rw [h, pyMaxNat]; exact foldl_max_self y ys
    · exact foldl_max_le_of_mem ys y x h

theorem dictInsert_of_not_mem (d : List (String × ℚ)) (k : String) (v : ℚ)
    (h : k ∉ d.map Prod.fst) : dictInsert d k v = d ++ [(k, v)] := by
  have hany : d.any (fun e => e.1 == k) = false := by
    rw [List.any_eq_false]
    intro e he
    intro hek
    exact h (List.mem_map.mpr ⟨e, he, eq_of_beq hek⟩)
  rw [dictInsert, hany]
  rfl

/-- A dict comprehension over pairs with pairwise distinct keys is the
identity: no overwrite ever happens. -/
theorem dictOfList_eq_self (l : List (String × ℚ)) (h : (l.map Prod.fst).Nodup) :
    dictOfList l = l := by
  suffices haux : ∀ (l : List (String × ℚ)) (acc : List (String × ℚ)),
      (∀ k ∈ l.map Prod.fst, k ∉ acc.map Prod.fst) → (l.map Prod.fst).Nodup →
      l.foldl (fun d p => dictInsert d p.1 p.2) acc = acc ++ l by
    have := haux l [] (by simp) h
    simpa [dictOfList] using this
  intro l
  induction l with
  | nil => intro acc _ _; simp
  | cons p t ih =>
    intro acc hdisj hnd
    have hp : p.1 ∉ acc.map Prod.fst := hdisj p.1 (by simp)
    have hins : dictInsert acc p.1 p.2 = acc ++ [p] := by
      rw [dictInsert_of_not_mem acc p.1 p.2 hp]
    rw [List.map_cons] at hnd
    have hcons := List.nodup_cons.mp hnd
    have hmapnd : (t.map Prod.fst).Nodup := hcons.2
    have hhead : p.1 ∉ t.map Prod.fst := hcons.1
    have hdisj2 : ∀ k ∈ t.map Prod.fst, k ∉ (acc ++ [p]).map Prod.fst := by
      intro k hk
      simp only [List.map_append, List.mem_append, List.map_cons, List.map_nil,
        List.mem_singleton, List.mem_cons]
      rintro (hka | hkp)
      · exact hdisj k (by simp [hk]) hka
      · simp at hkp
        exact hhead (hkp ▸ hk)
    calc (p :: t).foldl (fun d p => dictInsert d p.1 p.2) acc
        = t.foldl (fun d p => dictInsert d p.1 p.2) (acc ++ [p]) := by
          rw [List.foldl_cons, hins]
      _ = (acc ++ [p]) ++ t := ih (acc ++ [p]) hdisj2 hmapnd
      _ = acc ++ (p :: t) := by simp

/-- Value lookup in a dict whose entries all carry the same value. -/
theorem dictGet_eq_of_all (l : List (String × ℚ)) (k : String) (v : ℚ)
    (hall : ∀ p ∈ l, p.2 = v) (hk : k ∈ l.map Prod.fst) : dictGet l k 0 = v := by
  rcases hfind : l.find? (fun e => e.1 == k) with _ | e
  · exfalso
    rw [List.find?_eq_none] at hfind
    rcases List.mem_map.mp hk with ⟨p, hp, hpk⟩
    exact hfind p hp (by simp [hpk])
  · rw [dictGet, hfind]
    exact hall e (List.mem_of_find?_eq_some hfind)

theorem dictInsert_all_values (d : List (String × ℚ)) (k : String) (v w : ℚ)
    (hd : ∀ p ∈ d, p.2 = w) (hv : v = w) : ∀ p ∈ dictInsert d k v, p.2 = w := by
  intro p hp
  rw [dictInsert] at hp
  split at hp
  · rcases List.mem_map.mp hp with ⟨e, he, hep⟩
    by_cases hek : e.1 == k
    · rw [if_pos hek] at hep
      rw [← hep]
      exact hv
    · rw [if_neg hek] at hep
      rw [← hep]
      exact hd e he
  · rcases List.mem_append.mp hp with h | h
    · exact hd p h
    · simp at h
      rw [h]
      exact hv

theorem keys_dictInsert (d : List (String × ℚ)) (k k' : String) (v : ℚ) :
    k' ∈ (dictInsert d k v).map Prod.fst ↔ k' ∈ d.map Prod.fst ∨ k' = k := by
  rw [dictInsert]
  by_cases hany : d.any (fun e => e.1 == k) = true
  · rw [if_pos hany]
    have hkeys : (d.map (fun e => if e.1 == k then (e.1, v) else e)).map Prod.fst
        = d.map Prod.fst := by
      rw [List.map_map]
      apply List.map_congr_left
      intro e _
      by_cases he : e.1 = k
      · simp [he]
      · simp [he]
    rw [hkeys]
    constructor
    · exact Or.inl
    · intro h
      rcases h with h | h
      · exact h
      · rcases List.any_eq_true.mp hany with ⟨e, he, hek⟩
        subst h
        exact List.mem_map.mpr ⟨e, he, eq_of_beq hek⟩
  · rw [if_neg hany]
    rw [List.map_append]
    simp

theorem keys_dictOfList (l : List (String × ℚ)) (k : String)
    (h : k ∈ l.map Prod.fst) : k ∈ (dictOfList l).map Prod.fst := by
  suffices haux : ∀ (l acc : List (String × ℚ)),
      k ∈ acc.map Prod.fst ∨ k ∈ l.map Prod.fst →
      k ∈ (l.foldl (fun d p => dictInsert d p.1 p.2) acc).map Prod.fst by
    exact haux l [] (Or.inr h)
  intro l
  induction l with
  | nil =>
    intro acc hacc
    rcases hacc with h1 | h1
    · simpa using h1
    · simp at h1
  | cons p t ih =>
    intro acc hacc
    rw [List.foldl_cons]
    apply ih
    rcases hacc with h1 | h1
    · exact Or.inl ((keys_dictInsert acc p.1 k p.2).mpr (Or.inl h1))
    · simp only [List.map_cons, List.mem_cons] at h1
      rcases h1 with h1 | h1
      · exact Or.inl ((keys_dictInsert acc p.1 k p.2).mpr (Or.inr h1))
      · exact Or.inr h1

theorem dictOfList_all_values (l : List (String × ℚ)) (w : ℚ)
    (hall : ∀ p ∈ l, p.2 = w) : ∀ p ∈ dictOfList l, p.2 = w := by
  suffices haux : ∀ (l acc : List (String × ℚ)),
      (∀ p ∈ acc, p.2 = w) → (∀ p ∈ l, p.2 = w) →
      ∀ p ∈ l.foldl (fun d p => dictInsert d p.1 p.2) acc, p.2 = w by
    exact haux l [] (by simp) hall
  intro l
  induction l with
  | nil => intro acc hacc _ p hp; exact hacc p hp
  | cons q t ih =>
    intro acc hacc hl p hp
    rw [List.foldl_cons] at hp
    exact ih (dictInsert acc q.1 q.2)
      (dictInsert_all_values acc q.1 q.2 w hacc (hl q (by simp)))
      (fun x hx => hl x (List.mem_cons_of_mem q hx)) p hp

/-- The head of the stable descending sort of a non-empty list is a member
attaining the maximum value. -/
theorem sortDesc_head_max (l : List (String × ℚ)) (h : l ≠ []) :
    ∃ p t, List.insertionSort descQ l = p :: t ∧ p ∈ l ∧ ∀ q ∈ l, q.2 ≤ p.2 := by
  have hperm := List.perm_insertionSort descQ l
  have hsorted := List.sorted_insertionSort descQ l
  rcases hs : List.insertionSort descQ l with _ | ⟨p, t⟩
  · rw [hs] at hperm
    exact absurd (hperm.symm.eq_nil) h
  · refine ⟨p, t, rfl, ?_, ?_⟩
    · have : p ∈ List.insertionSort descQ l := by rw [hs]; exact List.mem_cons_self p t
      exact hperm.mem_iff.mp this
    · intro q hq
      have hq2 : q ∈ p :: t := by
        rw [← hs]
        exact hperm.mem_iff.mpr hq
      rcases List.mem_cons.mp hq2 with h1 | h1
      · rw [h1]
      · rw [hs] at hsorted
        exact List.rel_of_sorted_cons hsorted q h1

/-! ## C3 — catalog loading and duplicate ids -/

/-- C3 (counterexample): loading a catalog source whose two rows share the
id `"IPC_420"` does **not** fail — `BertSectionMapper.__init__` performs no
duplicate-id validation (no `CatalogLoadError` exists anywhere in the
code), and a catalog containing both duplicate entries is constructed. -/
theorem C3_counterexample :
    (bertInit [⟨"IPC_420", "Cheating", "x"⟩, ⟨"IPC_420", "Cheating again", "y"⟩]).map
        CatalogEntry.id = ["IPC_420", "IPC_420"] ∧
    ¬ ((bertInit [⟨"IPC_420", "Cheating", "x"⟩, ⟨"IPC_420", "Cheating again", "y"⟩]).map
        CatalogEntry.id).Nodup := by
  constructor
  · rfl
  · intro h
    rcases List.nodup_cons.mp h with ⟨h1, _⟩
    exact h1 (List.mem_singleton.mpr rfl)

/-- C3 (amended): catalog construction is total and validation-free: every
source row — duplicate ids included — yields exactly one catalog entry, in
order, so a catalog with duplicate ids is constructed rather than refused. -/
theorem C3_amended (rows : List CsvRow) :
    (bertInit rows).map CatalogEntry.id = rows.map CsvRow.id ∧
    (bertInit rows).length = rows.length := by
  constructor
  · rw [bertInit, List.map_map]
    rfl
  · simp [bertInit]

/-! ## C4 — canonicalization of citation variants and year noise -/

set_option maxRecDepth 16000 in
/-- C4: `normalize_to_ipc` maps `"Section 420"`, `"420 IPC"` and
`"IPC_420"` to the single canonical id `"IPC_420"`; it returns `none` on
every bare 4-digit token whose value lies in 1700–2100 (in particular
`"1860"`), and `none` on the empty string. -/
theorem C4_normalizer_variants_and_year :
    (normalize_to_ipc "Section 420" = some "IPC_420" ∧
      normalize_to_ipc "420 IPC" = some "IPC_420" ∧
      normalize_to_ipc "IPC_420" = some "IPC_420") ∧
    (∀ n : ℕ, 1700 ≤ n → n ≤ 2100 → normalize_to_ipc (Nat.repr n) = none) ∧
    normalize_to_ipc "" = none := by
  refine ⟨⟨by decide, by decide, by decide⟩, ?_, by decide⟩
  have hall : ∀ n ∈ Finset.Icc (1700 : ℕ) 2100, normalize_to_ipc (Nat.repr n) = none := by
    decide
  intro n h1 h2
  exact hall n (Finset.mem_Icc.mpr ⟨h1, h2⟩)

/-- C4 (witness): the year-range clause applied at the concrete token
`"1860"`. -/
theorem C4_witness : normalize_to_ipc (Nat.repr 1860) = none :=
  C4_normalizer_variants_and_year.2.1 1860 (by norm_num) (by norm_num)

/-! ## C5 — zero-division guards of the probability maps -/

/-- C5: `probability_map` of the empty hit list is the empty map, and of an
all-zero-count (resp. all-zero-score) list is also the empty map, for both
the regex and the similarity signal source — normalization degrades to an
empty map instead of dividing by zero. -/
theorem C5_probability_map_guards :
    regex_probability_map [] = [] ∧
    (∀ hits : List RegexHit, (∀ h ∈ hits, h.count = 0) → regex_probability_map hits = []) ∧
    bert_probability_map [] = [] ∧
    (∀ ms : List BertMatch, (∀ m ∈ ms, m.score = 0) → bert_probability_map ms = []) := by
  refine ⟨rfl, ?_, rfl, ?_⟩
  · intro hits hall
    match hits with
    | [] => rfl
    | h :: t =>
      have hmem := pyMaxNat_mem ((h :: t).map RegexHit.count) (by simp)
      rcases List.mem_map.mp hmem with ⟨x, hx, hxc⟩
      have hz : pyMaxNat ((h :: t).map RegexHit.count) = 0 := by
        rw [← hxc]
        exact hall x hx
      simp only [regex_probability_map, hz]
      simp
  · intro ms hall
    match ms with
    | [] => rfl
    | m :: t =>
      have hmem := pyMaxQ_mem ((m :: t).map BertMatch.score) (by simp)
      rcases List.mem_map.mp hmem with ⟨x, hx, hxc⟩
      have hz : pyMaxQ ((m :: t).map BertMatch.score) = 0 := by
        rw [← hxc]
        exact hall x hx
      simp only [bert_probability_map, hz]
      simp

/-- C5 (witness): both guards applied to concrete one-element lists with a
zero count / zero score. -/
theorem C5_witness :
    regex_probability_map [⟨"IPC_1", "1", 0⟩] = [] ∧
    bert_probability_map [⟨"IPC_1", "title", 0⟩] = [] :=
  ⟨C5_probability_map_guards.2.1 [⟨"IPC_1", "1", 0⟩]
      (by intro h hh; rw [List.mem_singleton] at hh; rw [hh]),
    C5_probability_map_guards.2.2.2 [⟨"IPC_1", "title", 0⟩]
      (by intro m hm; rw [List.mem_singleton] at hm; rw [hm])⟩

/-! ## C6 — equal counts all normalize to 1.0 -/

/-- C6: for any hit list with all counts equal to one positive value,
`regex_probability_map` assigns probability `1.0` to the statute id of
every hit in the list. -/
theorem C6_equal_counts_all_one (hits : List RegexHit) (c : Nat)
    (hc : 0 < c) (hall : ∀ h ∈ hits, h.count = c) :
    ∀ h ∈ hits, dictGet (regex_probability_map hits) h.statute_id 0 = 1 := by
  intro h hmem
  match hits, hmem with
  | h0 :: t, hmem =>
    have hmax : pyMaxNat ((h0 :: t).map RegexHit.count) = c := by
      apply le_antisymm
      · rcases List.mem_map.mp (pyMaxNat_mem ((h0 :: t).map RegexHit.count) (by simp))
          with ⟨x, hx, hxc⟩
        rw [← hxc]
        exact le_of_eq (hall x hx)
      · exact le_pyMaxNat _ c (List.mem_map.mpr ⟨h, hmem, hall h hmem⟩)
    have hcne : ¬ (c = 0) := hc.ne'
    simp only [regex_probability_map, hmax, if_neg hcne]
    apply dictGet_eq_of_all
    · apply dictOfList_all_values
      intro p hp
      rcases List.mem_map.mp hp with ⟨x, hx, hxp⟩
      rw [← hxp]
      show (x.count : ℚ) / (c : ℚ) = 1
      rw [hall x hx]
      exact div_self (Nat.cast_ne_zero.mpr hcne)
    · apply keys_dictOfList
      rw [List.map_map]
      exact List.mem_map.mpr ⟨h, hmem, rfl⟩

/-- C6 (witness): a two-hit list with equal positive counts, both ids
normalized to probability 1. -/
theorem C6_witness :
    dictGet (regex_probability_map [⟨"IPC_302", "302", 2⟩, ⟨"IPC_420", "420", 2⟩])
      "IPC_420" 0 = 1 :=
  C6_equal_counts_all_one [⟨"IPC_302", "302", 2⟩, ⟨"IPC_420", "420", 2⟩] 2 (by norm_num)
    (by intro h hh; rcases List.mem_cons.mp hh with h1 | h1
        · rw [h1]
        · rw [List.mem_singleton] at h1; rw [h1])
    ⟨"IPC_420", "420", 2⟩ (by simp)

/-! ## C7 — properties of the token-set similarity -/

/-- C7 (counterexample): the claim "similarity(s, s) = 1.0 for every set s"
fails at the empty set: the code returns 0 whenever either argument is
empty, hence also on `_jaccard ∅ ∅`. -/
theorem C7_counterexample : _jaccard (∅ : Finset String) ∅ = 0 ∧ (0 : ℚ) ≠ 1 :=
  ⟨by simp [_jaccard], by norm_num⟩

/-- C7 (amended): `_jaccard` is symmetric, is 0 whenever either token set
is empty, and equals 1.0 on `_jaccard s s` for every **non-empty** set `s`
(for `s = ∅` the empty-set rule wins and the value is 0). -/
theorem C7_amended :
    (∀ a b : Finset String, _jaccard a b = _jaccard b a) ∧
    (∀ b : Finset String, _jaccard ∅ b = 0) ∧
    (∀ a : Finset String, _jaccard a ∅ = 0) ∧
    (∀ s : Finset String, s ≠ ∅ → _jaccard s s = 1) := by
  refine ⟨?_, ?_, ?_, ?_⟩
  · intro a b
    rw [_jaccard, _jaccard, Finset.inter_comm, Finset.union_comm]
    exact if_congr or_comm rfl rfl
  · intro b
    simp [_jaccard]
  · intro a
    simp [_jaccard]
  · intro s hs
    rw [_jaccard, if_neg (by simp [hs]), Finset.inter_self, Finset.union_self]
    rw [if_neg (by simp [Finset.card_eq_zero, hs])]
    exact div_self (Nat.cast_ne_zero.mpr (by simp [Finset.card_eq_zero, hs]))

/-- C7 (witness): the self-similarity clause applied to the concrete
non-empty token set `{"cheating"}`. -/
theorem C7_witness : _jaccard ({"cheating"} : Finset String) {"cheating"} = 1 :=
  C7_amended.2.2.2 {"cheating"} (by simp)

/-! ## C8 — (non-)commutativity of the fusion step -/

/-- C8 (counterexample): swapping the two probability maps changes the
result — with `r = {"X": 1.0}` and `b = {"Y": 1.0}`, `fuse(r, b)` scores X
at 100 and Y at 200/3, while `fuse(b, r)` scores Y at 100 and X at 200/3
(the weights 0.6/0.4 are attached to the argument positions).  The two
results differ even as unordered collections, so this does not depend on
the determinization of the set iteration order. -/
theorem C8_counterexample :
    graph_based_rerank [("X", 1)] [("Y", 1)] 10 = [⟨"X", 100⟩, ⟨"Y", 200/3⟩] ∧
    graph_based_rerank [("Y", 1)] [("X", 1)] 10 = [⟨"Y", 100⟩, ⟨"X", 200/3⟩] ∧
    graph_based_rerank [("X", 1)] [("Y", 1)] 10 ≠
      graph_based_rerank [("Y", 1)] [("X", 1)] 10 := by
  have e1 : (("Y" : String) == "X") = false := by decide
  have e2 : (("X" : String) == "Y") = false := by decide
  have hm : max ((3 : ℚ)/5) (2/5) = 3/5 := max_eq_left (by norm_num)
  have h1 : graph_based_rerank [("X", 1)] [("Y", 1)] 10 = [⟨"X", 100⟩, ⟨"Y", 200/3⟩] := by
    have hd : allNodes [("X", (1 : ℚ))] [("Y", (1 : ℚ))] = ["X", "Y"] := by decide
    simp only [graph_based_rerank, hd, List.map_cons, List.map_nil, fused_score, dictGet,
      List.find?, e1, e2]
    norm_num [pyMaxQ, List.foldl, descQ, hm, List.take]
    intro hcontra
    simp at hcontra
  have h2 : graph_based_rerank [("Y", 1)] [("X", 1)] 10 = [⟨"Y", 100⟩, ⟨"X", 200/3⟩] := by
    have hd : allNodes [("Y", (1 : ℚ))] [("X", (1 : ℚ))] = ["Y", "X"] := by decide
    simp only [graph_based_rerank, hd, List.map_cons, List.map_nil, fused_score, dictGet,
      List.find?, e1, e2]
    norm_num [pyMaxQ, List.foldl, descQ, hm, List.take]
    intro hcontra
    simp at hcontra
  refine ⟨h1, h2, ?_⟩
  rw [h1, h2]
  intro hcontra
  have := List.head_eq_of_cons_eq hcontra
  simp at this

/-- C8 (amended): the id set ranked by the fusion is the same for both
argument orders, and swapping the two input maps is exactly equivalent to
swapping the two weights in the fused vote; full commutativity fails only
because the source fixes the asymmetric weights 0.6/0.4 to the argument
positions. -/
theorem C8_amended (w1 w2 : ℚ) (r b : List (String × ℚ)) (n : String) :
    (n ∈ allNodes r b ↔ n ∈ allNodes b r) ∧
    fused_score w1 w2 r b n = fused_score w2 w1 b r n := by
  constructor
  · rw [allNodes, allNodes, List.mem_dedup, List.mem_dedup,
      List.mem_append, List.mem_append]
    exact or_comm
  · rw [fused_score, fused_score]
    ring

theorem dictGet_nonneg (d : List (String × ℚ)) (hall : ∀ p ∈ d, 0 ≤ p.2) (s : String) :
    0 ≤ dictGet d s 0 := by
  rw [dictGet]
  rcases hfind : d.find? (fun e => e.1 == s) with _ | e
  · rw [hfind]
  · rw [hfind]
    exact hall e (List.mem_of_find?_eq_some hfind)

theorem dictGet_single_same (k : String) (v : ℚ) : dictGet [(k, v)] k 0 = v := by
  rw [dictGet]
  have h : List.find? (fun e => e.1 == k) [(k, v)] = some (k, v) := by
    simp [List.find?]
  rw [h]

theorem dictGet_single_other (k n : String) (v : ℚ) (h : n ≠ k) :
    dictGet [(k, v)] n 0 = 0 := by
  rw [dictGet]
  have hp : ((((k, v) : String × ℚ).1 == n)) = false := by
    simp only [beq_eq_false_iff_ne, ne_eq]
    exact fun hh => h hh.symm
  have hf : List.find? (fun e => e.1 == n) [(k, v)] = none := by
    rw [List.find?_cons, hp]
    rfl
  rw [hf]

theorem dictGet_nil (s : String) : dictGet [] s 0 = 0 := rfl

/-! ## C1 — maximum of a non-empty fused result -/

/-- Core analysis of the rescaling branch of `graph_based_rerank`: if the
maximum fused value is positive, the rescaled ranking is non-empty, attains
exactly 100 and is bounded by 100. -/
theorem rerank_branch_props (F : List (String × ℚ)) (k : Nat) (hk : 0 < k)
    (hF : F ≠ []) (hpos : 0 < pyMaxQ (F.map Prod.snd)) :
    ((List.insertionSort descQ F).take k).map
        (fun kv => (⟨kv.1, kv.2 / (if pyMaxQ (F.map Prod.snd) = 0 then 1
          else pyMaxQ (F.map Prod.snd)) * 100⟩ : GraphResult)) ≠ [] ∧
    (∃ g ∈ ((List.insertionSort descQ F).take k).map
        (fun kv => (⟨kv.1, kv.2 / (if pyMaxQ (F.map Prod.snd) = 0 then 1
          else pyMaxQ (F.map Prod.snd)) * 100⟩ : GraphResult)), g.probability = 100) ∧
    ∀ g ∈ ((List.insertionSort descQ F).take k).map
        (fun kv => (⟨kv.1, kv.2 / (if pyMaxQ (F.map Prod.snd) = 0 then 1
          else pyMaxQ (F.map Prod.snd)) * 100⟩ : GraphResult)), g.probability ≤ 100 := by
  set m := pyMaxQ (F.map Prod.snd) with hm
  have hmne : ¬ (m = 0) := ne_of_gt hpos
  rw [if_neg hmne]
  rcases sortDesc_head_max F hF with ⟨p, t, hsort, hpmem, hpmax⟩
  have hpm : p.2 = m := by
    apply le_antisymm
    · exact le_pyMaxQ _ p.2 (List.mem_map.mpr ⟨p, hpmem, rfl⟩)
    · rcases List.mem_map.mp (pyMaxQ_mem (F.map Prod.snd) (by
        intro hnil
        exact hF (List.map_eq_nil_iff.mp hnil))) with ⟨q, hq, hqm⟩
      rw [← hm] at hqm
      rw [← hqm]
      exact hpmax q hq
  rcases k with _ | k1
  · exact absurd hk (by omega)
  · rw [hsort, List.take_succ_cons, List.map_cons]
    refine ⟨by simp, ?_, ?_⟩
    · refine ⟨⟨p.1, p.2 / m * 100⟩, List.mem_cons_self _ _, ?_⟩
      show p.2 / m * 100 = 100
      rw [hpm, div_self hmne, one_mul]
    · intro g hg
      rcases List.mem_cons.mp hg with hgh | hgt
      · rw [hgh]
        show p.2 / m * 100 ≤ 100
        rw [hpm, div_self hmne, one_mul]
      · rcases List.mem_map.mp hgt with ⟨q, hq, hqg⟩
        have hqmem : q ∈ F := by
          have h1 : q ∈ p :: t := List.mem_cons_of_mem p (List.mem_of_mem_take hq)
          rw [← hsort] at h1
          exact (List.perm_insertionSort descQ F).mem_iff.mp h1
        have hqle : q.2 ≤ m := le_pyMaxQ _ q.2 (List.mem_map.mpr ⟨q, hqmem, rfl⟩)
        rw [← hqg]
        show q.2 / m * 100 ≤ 100
        calc q.2 / m * 100 ≤ 1 * 100 := by
              apply mul_le_mul_of_nonneg_right _ (by norm_num)
              exact (div_le_one hpos).mpr hqle
          _ = 100 := one_mul 100

/-- C1 (counterexample): on the probability-map input `{"X": 0.0}` (a
legal `ProbabilityMap` per the data model — values in `[0,1]`) the fusion
returns the non-empty ranking `[("X", 0)]`, whose maximum probability is 0,
not 100: the `max(...) or 1.0` guard divides by 1 instead of normalizing. -/
theorem C1_counterexample :
    graph_based_rerank [("X", 0)] [] 10 ≠ [] ∧
    ∀ g ∈ graph_based_rerank [("X", 0)] [] 10, g.probability ≠ 100 := by
  have h : graph_based_rerank [("X", 0)] [] 10 = [⟨"X", 0⟩] := by
    have hd : allNodes [("X", (0 : ℚ))] [] = ["X"] := by decide
    have e0 : (("X" : String) == "X") = true := by decide
    simp only [graph_based_rerank, hd, List.map_cons, List.map_nil, fused_score, dictGet,
      List.find?, e0]
    norm_num [pyMaxQ, List.foldl, List.insertionSort, List.orderedInsert, List.take]
  rw [h]
  refine ⟨by simp, ?_⟩
  intro g hg
  rw [List.mem_singleton] at hg
  rw [hg]
  show (0 : ℚ) ≠ 100
  norm_num

/-- C1 (amended): for probability maps with nonnegative values of which at
least one (on a ranked id) is strictly positive, every non-empty fused
ranking attains maximum probability exactly 100.0; `fuse({}, {})` returns
the empty sequence.  (On all-zero inputs — excluded here — the result is
non-empty with all probabilities 0.) -/
theorem C1_amended (r b : List (String × ℚ)) (k : Nat) (hk : 0 < k)
    (hnn : ∀ s, 0 ≤ dictGet r s 0 ∧ 0 ≤ dictGet b s 0)
    (hpos : ∃ s ∈ allNodes r b, 0 < dictGet r s 0 ∨ 0 < dictGet b s 0) :
    (graph_based_rerank r b k ≠ [] ∧
      (∃ g ∈ graph_based_rerank r b k, g.probability = 100) ∧
      ∀ g ∈ graph_based_rerank r b k, g.probability ≤ 100) ∧
    ∀ k2 : Nat, graph_based_rerank [] [] k2 = [] := by
  constructor
  · rcases hpos with ⟨s0, hs0, hcase⟩
    have hv0 : 0 < fused_score 0.6 0.4 r b s0 := by
      rcases hnn s0 with ⟨hr0, hb0⟩
      rw [fused_score]
      rcases hcase with h | h <;> nlinarith
    set F := (allNodes r b).map (fun node => (node, fused_score 0.6 0.4 r b node)) with hFdef
    have hmemF : (s0, fused_score 0.6 0.4 r b s0) ∈ F := List.mem_map.mpr ⟨s0, hs0, rfl⟩
    have hFne : F ≠ [] := by
      intro hnil
      rw [hnil] at hmemF
      cases hmemF
    have hposm : 0 < pyMaxQ (F.map Prod.snd) := by
      have h1 : fused_score 0.6 0.4 r b s0 ≤ pyMaxQ (F.map Prod.snd) :=
        le_pyMaxQ _ _ (List.mem_map.mpr ⟨_, hmemF, rfl⟩)
      linarith
    have hbranch := rerank_branch_props F k hk hFne hposm
    have heq : graph_based_rerank r b k =
        ((List.insertionSort descQ F).take k).map
          (fun kv => (⟨kv.1, kv.2 / (if pyMaxQ (F.map Prod.snd) = 0 then 1
            else pyMaxQ (F.map Prod.snd)) * 100⟩ : GraphResult)) := by
      simp only [graph_based_rerank]
      rw [← hFdef, if_neg hFne]
    rw [heq]
    exact hbranch
  · intro k2
    rfl

/-- C1 (witness): the amended theorem applied to the concrete maps
`{"A": 1.0}` and `{}`. -/
theorem C1_witness :
    graph_based_rerank [("A", 1)] [] 3 ≠ [] ∧
    (∃ g ∈ graph_based_rerank [("A", 1)] [] 3, g.probability = 100) ∧
    ∀ g ∈ graph_based_rerank [("A", 1)] [] 3, g.probability ≤ 100 :=
  (C1_amended [("A", 1)] [] 3 (by norm_num)
    (by
      intro s
      constructor
      · apply dictGet_nonneg
        intro p hp
        rw [List.mem_singleton] at hp
        rw [hp]
        norm_num
      · rw [dictGet_nil])
    ⟨"A", by decide, Or.inl (by
      rw [dictGet_single_same]
      norm_num)⟩).1

/-! ## C2 — the end-to-end example text -/

/-- If one entry strictly dominates every other fused entry, the rescaled
ranking starts with that entry's id at probability 100. -/
theorem rerank_branch_head (F : List (String × ℚ)) (k : Nat) (hk : 0 < k)
    (e : String × ℚ) (he : e ∈ F) (hpos : 0 < e.2)
    (hmax : ∀ q ∈ F, q ≠ e → q.2 < e.2) :
    ∃ t2, ((List.insertionSort descQ F).take k).map
        (fun kv => (⟨kv.1, kv.2 / (if pyMaxQ (F.map Prod.snd) = 0 then 1
          else pyMaxQ (F.map Prod.snd)) * 100⟩ : GraphResult)) = ⟨e.1, 100⟩ :: t2 := by
  have hF : F ≠ [] := by
    intro h
    rw [h] at he
    cases he
  rcases sortDesc_head_max F hF with ⟨p, t, hsort, hpmem, hpmax⟩
  have hpe : p = e := by
    by_contra hne
    have h1 : p.2 < e.2 := hmax p hpmem hne
    have h2 : e.2 ≤ p.2 := hpmax e he
    linarith
  have hm : pyMaxQ (F.map Prod.snd) = e.2 := by
    apply le_antisymm
    · rcases List.mem_map.mp (pyMaxQ_mem _ (by
        intro hnil
        exact hF (List.map_eq_nil_iff.mp hnil))) with ⟨q, hq, hqv⟩
      rw [← hqv]
      exact hpe ▸ hpmax q hq
    · exact le_pyMaxQ _ e.2 (List.mem_map.mpr ⟨e, he, rfl⟩)
  have hmne : ¬ (pyMaxQ (F.map Prod.snd) = 0) := by
    rw [hm]
    exact ne_of_gt hpos
  rcases k with _ | k1
  · exact absurd hk (by omega)
  · rw [hsort, hpe, List.take_succ_cons, List.map_cons, if_neg hmne, hm,
      div_self (ne_of_gt hpos), one_mul]
    exact ⟨_, rfl⟩

/-- With the regex map `{"IPC_420": 1.0}` and any similarity map with
values in `[0, 1]`, the fused vote of `IPC_420` (at least 0.6) strictly
dominates every other id (at most 0.4), so the top-1 fused result is
`IPC_420` at probability 100. -/
theorem rerank_single_dominant (b : List (String × ℚ))
    (hb : ∀ s, 0 ≤ dictGet b s 0 ∧ dictGet b s 0 ≤ 1) :
    ∃ t2, graph_based_rerank [("IPC_420", 1)] b 10 = ⟨"IPC_420", 100⟩ :: t2 := by
  set r : List (String × ℚ) := [("IPC_420", 1)] with hr
  have hnode : "IPC_420" ∈ allNodes r b := by
    rw [allNodes, List.mem_dedup, List.mem_append]
    left
    rw [hr]
    simp
  set F := (allNodes r b).map (fun node => (node, fused_score 0.6 0.4 r b node)) with hFdef
  set e : String × ℚ := ("IPC_420", fused_score 0.6 0.4 r b "IPC_420") with hedef
  have heF : e ∈ F := List.mem_map.mpr ⟨"IPC_420", hnode, rfl⟩
  have hgr : dictGet r "IPC_420" 0 = 1 := dictGet_single_same _ _
  have hepos : 0 < e.2 := by
    show 0 < fused_score 0.6 0.4 r b "IPC_420"
    rw [fused_score, hgr]
    have h3 := (hb "IPC_420").1
    nlinarith
  have hmax : ∀ q ∈ F, q ≠ e → q.2 < e.2 := by
    intro q hq hne
    rcases List.mem_map.mp hq with ⟨n, hn, hnq⟩
    have hnid : n ≠ "IPC_420" := by
      intro hc
      apply hne
      rw [← hnq, hc, hedef]
    have hgrn : dictGet r n 0 = 0 := dictGet_single_other _ _ _ hnid
    rw [← hnq]
    show fused_score 0.6 0.4 r b n < e.2
    have he2 : e.2 = fused_score 0.6 0.4 r b "IPC_420" := rfl
    rw [he2, fused_score, fused_score, hgrn, hgr]
    have h1 := (hb n).1
    have h2 := (hb n).2
    have h3 := (hb "IPC_420").1
    nlinarith
  have hFne : F ≠ [] := by
    intro h
    rw [h] at heF
    cases heF
  rcases rerank_branch_head F 10 (by norm_num) e heF hepos hmax with ⟨t2, ht2⟩
  refine ⟨t2, ?_⟩
  simp only [graph_based_rerank]
  rw [← hFdef, if_neg hFne]
  exact ht2

set_option maxRecDepth 16000 in
/-- C2 (counterexample): on the example text, each of the two occurrences
of `"Section 420 IPC"` is matched by **both** pattern families
(`section …` and `… IPC`), so the single regex hit for `IPC_420` has count
4 — not 2 as claimed. -/
theorem C2_counterexample :
    map_statutes_with_regex c2text = [⟨"IPC_420", "420", 4⟩] ∧ (4 : Nat) ≠ 2 :=
  ⟨by decide, by norm_num⟩

set_option maxRecDepth 16000 in
/-- C2 (amended): on the example text the regex hits are exactly one hit
`IPC_420` (mention `"420"`) with count 4 and no other statute id; and for
every similarity probability map with values in `[0, 1]` — in particular
whatever the catalog produces — the top-1 fused result is `IPC_420` with
probability exactly 100.0. -/
theorem C2_amended :
    map_statutes_with_regex c2text = [⟨"IPC_420", "420", 4⟩] ∧
    ∀ bprobs : List (String × ℚ),
      (∀ s, 0 ≤ dictGet bprobs s 0 ∧ dictGet bprobs s 0 ≤ 1) →
      ∃ t2, graph_based_rerank (regex_probability_map (map_statutes_with_regex c2text))
        bprobs 10 = ⟨"IPC_420", 100⟩ :: t2 := by
  have hhits : map_statutes_with_regex c2text = [⟨"IPC_420", "420", 4⟩] := by decide
  refine ⟨hhits, ?_⟩
  intro bprobs hb
  have hrpm : regex_probability_map [(⟨"IPC_420", "420", 4⟩ : RegexHit)] = [("IPC_420", 1)] := by
    rw [regex_probability_map, if_neg (by simp)]
    norm_num [pyMaxNat, List.foldl, dictOfList, dictInsert]
  rw [hhits, hrpm]
  exact rerank_single_dominant bprobs hb

/-- C2 (witness): the amended theorem applied with the empty similarity
map. -/
theorem C2_witness :
    ∃ t2, graph_based_rerank (regex_probability_map (map_statutes_with_regex c2text)) [] 10 =
      ⟨"IPC_420", 100⟩ :: t2 :=
  C2_amended.2 [] (by
    intro s
    rw [dictGet_nil]
    norm_num)

/-! ## C9 — idempotence of the normalizer -/

theorem kept_pyUpper (c : Char) (h : isKeptChar c = true) : pyUpper c = c := by
  rw [pyUpper, if_neg]
  rintro ⟨h1, h2⟩
  rw [isKeptChar, isDigitChar, isUpperAZ] at h
  simp only [Bool.or_eq_true, Bool.and_eq_true, decide_eq_true_eq] at h
  have h3 : (48 ≤ c.toNat ∧ c.toNat ≤ 57) ∨ (65 ≤ c.toNat ∧ c.toNat ≤ 90) ∨ c = '_' := by
    tauto
  rcases h3 with ⟨hd1, hd2⟩ | ⟨hu1, hu2⟩ | hc
  · omega
  · omega
  · subst hc
    exact absurd h1 (by decide)

theorem kept_not_space (c : Char) (h : isKeptChar c = true) : isPySpace c = false := by
  by_contra hsp0
  rw [Bool.not_eq_false, isPySpace] at hsp0
  simp only [Bool.or_eq_true, decide_eq_true_eq] at hsp0
  have hsp : c = ' ' ∨ c = '\t' ∨ c = '\n' ∨ c = '\r' ∨ c = '\x0b' ∨ c = '\x0c' := by
    tauto
  rcases hsp with hc | hc | hc | hc | hc | hc <;> (subst hc; exact absurd h (by decide))

theorem kept_dashSpace (c : Char) (h : isKeptChar c = true) : dashSpaceToUnder c = c := by
  rw [dashSpaceToUnder, if_neg, if_neg]
  · intro hc
    subst hc
    exact absurd h (by decide)
  · intro hc
    subst hc
    exact absurd h (by decide)

theorem map_id_of_forall {α} (l : List α) (f : α → α) (h : ∀ c ∈ l, f c = c) :
    l.map f = l := by
  induction l with
  | nil => rfl
  | cons c t ih =>
    rw [List.map_cons, h c (by simp), ih (fun d hd => h d (by simp [hd]))]

theorem dropWhile_eq_self_of_none (p : Char → Bool) (l : List Char)
    (h : ∀ c ∈ l, p c = false) : l.dropWhile p = l := by
  cases l with
  | nil => rfl
  | cons c t =>
    rw [List.dropWhile_cons, h c (by simp)]
    rfl

theorem stripEnds_eq_self (p : Char → Bool) (l : List Char)
    (h : ∀ c ∈ l, p c = false) : stripEnds p l = l := by
  rw [stripEnds, dropWhile_eq_self_of_none p l h,
    dropWhile_eq_self_of_none p l.reverse (by
      intro c hc
      exact h c (List.mem_reverse.mp hc)), List.reverse_reverse]

theorem mem_of_mem_stripEnds (p : Char → Bool) (l : List Char) (c : Char)
    (h : c ∈ stripEnds p l) : c ∈ l := by
  rw [stripEnds, List.mem_reverse] at h
  have h1 := (List.dropWhile_sublist p).subset h
  rw [List.mem_reverse] at h1
  exact (List.dropWhile_sublist p).subset h1

theorem mem_of_mem_squeezeGo :
    ∀ (b : Bool) (l : List Char) (c : Char), c ∈ squeezeGo b l → c ∈ l
  | _, [], _, h => by cases h
  | b, d :: t, c, h => by
    simp only [squeezeGo] at h
    by_cases hd : d = '_'
    · rw [if_pos hd] at h
      cases b with
      | true =>
        exact List.mem_cons_of_mem d (mem_of_mem_squeezeGo true t c h)
      | false =>
        rcases List.mem_cons.mp h with h1 | h1
        · rw [h1, hd]
          exact List.mem_cons_self _ _
        · exact List.mem_cons_of_mem d (mem_of_mem_squeezeGo true t c h1)
    · rw [if_neg hd] at h
      rcases List.mem_cons.mp h with h1 | h1
      · rw [h1]
        exact List.mem_cons_self _ _
      · exact List.mem_cons_of_mem d (mem_of_mem_squeezeGo false t c h1)

/-- Every canonical id produced by `normalize_to_ipc` is `IPC_` followed by
characters from the kept class `[0-9A-Z_]`. -/
theorem normalize_shape (x y : String) (h : normalize_to_ipc x = some y) :
    ∃ t, y.data = 'I' :: 'P' :: 'C' :: '_' :: t ∧ ∀ c ∈ t, isKeptChar c = true := by
  rw [normalize_to_ipc] at h
  by_cases hx : x = ""
  · rw [if_pos hx] at h
    cases h
  · rw [if_neg hx] at h
    simp only at h
    set s1 : List Char :=
      stripSectionWord (stripEnds isPySpace (List.map pyUpper x.data)) with hs1
    by_cases hipc : hasIpcMark s1 = true
    · rw [if_pos hipc] at h
      set s2 : List Char := (s1.map dashSpaceToUnder).filter isKeptChar with hs2
      have hkept2 : ∀ c ∈ s2, isKeptChar c = true := by
        intro c hc
        rw [hs2] at hc
        exact List.of_mem_filter hc
      by_cases hpre : ("IPC_".data).isPrefixOf s2 = true
      · rw [if_pos hpre] at h
        injection h with hy
        obtain ⟨t, ht⟩ : ∃ t, "IPC_".data ++ t = s2 :=
          List.isPrefixOf_iff_prefix.mp hpre
        refine ⟨t, ?_, ?_⟩
        · rw [← hy]
          show s2 = 'I' :: 'P' :: 'C' :: '_' :: t
          rw [← ht]
          exact rfl
        · intro c hc
          apply hkept2
          rw [← ht]
          exact List.mem_append_right _ hc
      · rw [if_neg hpre] at h
        injection h with hy
        refine ⟨lstripIpcChars s2, ?_, ?_⟩
        · rw [← hy]
          exact rfl
        · intro c hc
          apply hkept2
          rw [lstripIpcChars] at hc
          exact (List.dropWhile_sublist _).subset hc
    · rw [if_neg hipc] at h
      set s3 : List Char :=
        stripEnds (fun c => (" :,.-".data).contains c) (removeIPC s1) with hs3
      by_cases hyear : isYearToken s3 = true
      · rw [if_pos hyear] at h
        cases h
      · rw [if_neg hyear] at h
        set s5 : List Char :=
          stripEnds (fun c => c = '_')
            (squeezeUnders (((joinParens s3).map parenToUnder).filter isKeptChar)) with hs5
        set s6 : List Char := stripEnds (fun c => c = '_') s5 with hs6
        by_cases hnil : s6 = []
        · rw [if_pos hnil] at h
          cases h
        · rw [if_neg hnil] at h
          injection h with hy
          refine ⟨s6, ?_, ?_⟩
          · rw [← hy]
          · intro c hc
            have h1 := mem_of_mem_stripEnds _ _ _ (hs6 ▸ hc)
            have h2 := mem_of_mem_stripEnds _ _ _ (hs5 ▸ h1)
            have h3 := mem_of_mem_squeezeGo false _ _ h2
            exact List.of_mem_filter h3

/-- Every `IPC_`-headed string over the kept class is a fixed point of the
normalizer. -/
theorem normalize_fixed (t : List Char) (hkept : ∀ c ∈ t, isKeptChar c = true) :
    normalize_to_ipc (String.mk ('I' :: 'P' :: 'C' :: '_' :: t)) =
      some (String.mk ('I' :: 'P' :: 'C' :: '_' :: t)) := by
  set l : List Char := 'I' :: 'P' :: 'C' :: '_' :: t with hl
  have hkeptl : ∀ c ∈ l, isKeptChar c = true := by
    intro c hc
    rw [hl] at hc
    simp only [List.mem_cons] at hc
    rcases hc with h1 | h1 | h1 | h1 | h1
    · subst h1; decide
    · subst h1; decide
    · subst h1; decide
    · subst h1; decide
    · exact hkept c h1
  have hne : ¬ (String.mk l = "") := by
    intro hc
    have h1 := congrArg String.data hc
    rw [hl] at h1
    cases h1
  have hdata : (String.mk l).data = l := rfl
  have hupper : l.map pyUpper = l :=
    map_id_of_forall l pyUpper (fun c hc => kept_pyUpper c (hkeptl c hc))
  have hstrip : stripEnds isPySpace l = l :=
    stripEnds_eq_self _ _ (fun c hc => kept_not_space c (hkeptl c hc))
  have hsw : stripSectionWord l = l := by
    rw [hl]
    rfl
  have hpre : ("IPC_".data).isPrefixOf l = true := by
    rw [List.isPrefixOf_iff_prefix]
    exact ⟨t, by rw [hl]; exact rfl⟩
  have hmark : hasIpcMark l = true := by
    rw [hasIpcMark, hpre]
    rfl
  have hdash : l.map dashSpaceToUnder = l :=
    map_id_of_forall l dashSpaceToUnder (fun c hc => kept_dashSpace c (hkeptl c hc))
  have hfilt : l.filter isKeptChar = l := List.filter_eq_self.mpr hkeptl
  rw [normalize_to_ipc, if_neg hne]
  simp only [hdata, hupper, hstrip, hsw, hmark, hdash, hfilt, hpre, if_true]

/-- C9: the normalizer is idempotent — whenever `normalize_to_ipc x`
returns a canonical id `y`, normalizing `y` again returns `y` itself. -/
theorem C9_normalizer_idempotent (x y : String) (h : normalize_to_ipc x = some y) :
    normalize_to_ipc y = some y := by
  rcases normalize_shape x y h with ⟨t, hdata, hkept⟩
  have hy : y = String.mk ('I' :: 'P' :: 'C' :: '_' :: t) := by
    rw [← hdata]
  rw [hy]
  exact normalize_fixed t hkept

/-- C9 (witness): idempotence applied to the concrete normalization
`normalize_to_ipc "Section 420" = some "IPC_420"`. -/
theorem C9_witness : normalize_to_ipc "IPC_420" = some "IPC_420" :=
  C9_normalizer_idempotent "Section 420" "IPC_420" (by decide)

/-! ## C10 — the probability-map invariant of the pipeline -/

theorem countsAdd_counts (acc : List (String × Nat × String)) (k raw : String)
    (h : ∀ e ∈ acc, 1 ≤ e.2.1) : ∀ e ∈ countsAdd acc k raw, 1 ≤ e.2.1 := by
  intro e he
  rw [countsAdd] at he
  split at he
  · rcases List.mem_map.mp he with ⟨e0, he0, heq⟩
    by_cases h0 : e0.1 == k
    · rw [if_pos h0] at heq
      rw [← heq]
      have := h e0 he0
      simp only
      omega
    · rw [if_neg h0] at heq
      rw [← heq]
      exact h e0 he0
  · rcases List.mem_append.mp he with h1 | h1
    · exact h e h1
    · rw [List.mem_singleton] at h1
      rw [h1]

theorem countsAdd_keys_nodup (acc : List (String × Nat × String)) (k raw : String)
    (h : (acc.map Prod.fst).Nodup) : ((countsAdd acc k raw).map Prod.fst).Nodup := by
  rw [countsAdd]
  split
  · have hkeys : (acc.map (fun e => if e.1 == k then (e.1, e.2.1 + 1, e.2.2) else e)).map
        Prod.fst = acc.map Prod.fst := by
      rw [List.map_map]
      apply List.map_congr_left
      intro e _
      by_cases he : e.1 == k
      · rw [Function.comp_apply, if_pos he]
      · rw [Function.comp_apply, if_neg he]
    rw [hkeys]
    exact h
  · next hany =>
    rw [List.map_append]
    apply h.append (List.nodup_singleton k)
    intro a ha hak
    rw [List.mem_singleton] at hak
    subst hak
    rcases List.mem_map.mp ha with ⟨e, he, hek⟩
    exact hany (List.any_eq_true.mpr ⟨e, he, beq_iff_eq.mpr hek⟩)

theorem counts_fold_aux (l : List (String × String)) :
    ∀ (acc : List (String × Nat × String)),
      (∀ e ∈ acc, 1 ≤ e.2.1) → ((acc.map Prod.fst).Nodup) →
      (∀ e ∈ l.foldl (fun a p => countsAdd a p.1 p.2) acc, 1 ≤ e.2.1) ∧
      ((l.foldl (fun a p => countsAdd a p.1 p.2) acc).map Prod.fst).Nodup := by
  induction l with
  | nil =>
    intro acc h1 h2
    exact ⟨h1, h2⟩
  | cons p t ih =>
    intro acc h1 h2
    rw [List.foldl_cons]
    exact ih (countsAdd acc p.1 p.2) (countsAdd_counts acc p.1 p.2 h1)
      (countsAdd_keys_nodup acc p.1 p.2 h2)

theorem map_statutes_counts_pos (text : String) :
    ∀ h ∈ map_statutes_with_regex text, 1 ≤ h.count := by
  intro h hmem
  rw [map_statutes_with_regex] at hmem
  rcases List.mem_map.mp hmem with ⟨e, he, heq⟩
  have hperm := List.perm_insertionSort descCount
    (((findAll tryMatchSection text.data ++ findAll tryMatchIpc text.data).filterMap
      (fun g => (normalize_to_ipc (String.mk g)).map (fun cid => (cid, String.mk g)))).foldl
      (fun acc p => countsAdd acc p.1 p.2) [])
  have he2 := hperm.mem_iff.mp he
  have := (counts_fold_aux _ [] (by simp) (by simp)).1 e he2
  rw [← heq]
  exact this

theorem map_statutes_ids_nodup (text : String) :
    ((map_statutes_with_regex text).map RegexHit.statute_id).Nodup := by
  rw [map_statutes_with_regex]
  rw [List.map_map]
  have hcomp : (RegexHit.statute_id ∘ fun e : String × Nat × String =>
      (⟨e.1, e.2.2, e.2.1⟩ : RegexHit)) = Prod.fst := by
    funext e
    rfl
  rw [hcomp]
  have hperm := (List.perm_insertionSort descCount
    (((findAll tryMatchSection text.data ++ findAll tryMatchIpc text.data).filterMap
      (fun g => (normalize_to_ipc (String.mk g)).map (fun cid => (cid, String.mk g)))).foldl
      (fun acc p => countsAdd acc p.1 p.2) [])).map Prod.fst
  exact hperm.nodup_iff.mpr (counts_fold_aux _ [] (by simp) (by simp)).2

/-- The probability-map invariant for the regex signal source, given the
facts established about the extractor's hits. -/
theorem regex_probability_map_invariant (hits : List RegexHit)
    (hcnt : ∀ h ∈ hits, 1 ≤ h.count) (hnd : (hits.map RegexHit.statute_id).Nodup) :
    probInvariant (regex_probability_map hits) := by
  rcases hits with _ | ⟨h0, t⟩
  · left
    rfl
  · right
    rcases List.mem_map.mp (pyMaxNat_mem ((h0 :: t).map RegexHit.count) (by simp))
      with ⟨hx, hxmem, hxc⟩
    have hmaxpos : 1 ≤ pyMaxNat ((h0 :: t).map RegexHit.count) := by
      rw [← hxc]
      exact hcnt hx hxmem
    have hne0 : ¬ (pyMaxNat ((h0 :: t).map RegexHit.count) = 0) := by omega
    rw [regex_probability_map, if_neg (by simp)]
    simp only [if_neg hne0]
    have hkeys : (((h0 :: t).map (fun h => (h.statute_id,
        (h.count : ℚ) / (pyMaxNat ((h0 :: t).map RegexHit.count) : ℚ)))).map Prod.fst).Nodup := by
      rw [List.map_map]
      have hcomp : (Prod.fst ∘ fun h : RegexHit => (h.statute_id,
          (h.count : ℚ) / (pyMaxNat ((h0 :: t).map RegexHit.count) : ℚ))) =
          RegexHit.statute_id := by
        funext h
        rfl
      rw [hcomp]
      exact hnd
    rw [dictOfList_eq_self _ hkeys]
    constructor
    · intro p hp
      rcases List.mem_map.mp hp with ⟨hh, hhm, hhp⟩
      rw [← hhp]
      constructor
      · apply div_pos
        · exact_mod_cast Nat.lt_of_lt_of_le Nat.zero_lt_one (hcnt hh hhm)
        · exact_mod_cast Nat.lt_of_lt_of_le Nat.zero_lt_one hmaxpos
      · rw [div_le_one (by exact_mod_cast Nat.lt_of_lt_of_le Nat.zero_lt_one hmaxpos)]
        exact_mod_cast le_pyMaxNat _ _ (List.mem_map.mpr ⟨hh, hhm, rfl⟩)
    · refine ⟨(hx.statute_id, (hx.count : ℚ) /
        (pyMaxNat ((h0 :: t).map RegexHit.count) : ℚ)),
        List.mem_map.mpr ⟨hx, hxmem, rfl⟩, ?_⟩
      show (hx.count : ℚ) / (pyMaxNat ((h0 :: t).map RegexHit.count) : ℚ) = 1
      rw [hxc]
      exact div_self (by exact_mod_cast (by omega : ¬ (pyMaxNat ((h0 :: t).map
        RegexHit.count) = 0)))

theorem map_sections_scores_pos (catalog : List CatalogEntry) (text : String) (k : Nat) :
    ∀ m ∈ map_sections catalog text k, 0 < m.score := by
  intro m hm
  rw [map_sections] at hm
  have hm2 := List.mem_of_mem_take hm
  have hm3 := (List.perm_insertionSort descScore _).mem_iff.mp hm2
  rcases List.mem_filterMap.mp hm3 with ⟨row, _, hrow⟩
  simp only at hrow
  split at hrow
  · next hpos =>
    injection hrow with hb
    rw [← hb]
    exact hpos
  · cases hrow

/-- Ids of matches produced by scoring the catalog rows form a sublist of
the catalog's id column. -/
theorem filterMap_ids_sublist (catalog : List CatalogEntry) (f : CatalogEntry → Option BertMatch)
    (hf : ∀ r b, f r = some b → b.statute_id = r.id) :
    ((catalog.filterMap f).map BertMatch.statute_id).Sublist (catalog.map CatalogEntry.id) := by
  induction catalog with
  | nil => simp
  | cons r t ih =>
    rw [List.filterMap_cons, List.map_cons]
    split
    · exact ih.cons r.id
    · next b heq =>
      rw [List.map_cons, hf r b heq]
      exact ih.cons₂ r.id

theorem map_sections_ids_nodup (catalog : List CatalogEntry) (text : String) (k : Nat)
    (hnd : (catalog.map CatalogEntry.id).Nodup) :
    ((map_sections catalog text k).map BertMatch.statute_id).Nodup := by
  rw [map_sections]
  apply ((List.take_sublist k _).map BertMatch.statute_id).nodup
  apply (((List.perm_insertionSort descScore _).map BertMatch.statute_id).nodup_iff).mpr
  apply (filterMap_ids_sublist catalog _ ?_).nodup hnd
  intro r b heq
  simp only at heq
  split at heq
  · injection heq with hb
    rw [← hb]
  · cases heq

/-- The probability-map invariant for the similarity signal source, given
the facts established about `map_sections`. -/
theorem bert_probability_map_invariant (ms : List BertMatch)
    (hsc : ∀ m ∈ ms, 0 < m.score) (hnd : (ms.map BertMatch.statute_id).Nodup) :
    probInvariant (bert_probability_map ms) := by
  rcases ms with _ | ⟨m0, t⟩
  · left
    rfl
  · right
    rcases List.mem_map.mp (pyMaxQ_mem ((m0 :: t).map BertMatch.score) (by simp))
      with ⟨mx, hxmem, hxc⟩
    have hmaxpos : 0 < pyMaxQ ((m0 :: t).map BertMatch.score) := by
      rw [← hxc]
      exact hsc mx hxmem
    have hne0 : ¬ (pyMaxQ ((m0 :: t).map BertMatch.score) ≤ 0) := not_le.mpr hmaxpos
    rw [bert_probability_map, if_neg (by simp)]
    simp only [if_neg hne0]
    have hkeys : (((m0 :: t).map (fun m => (m.statute_id,
        m.score / pyMaxQ ((m0 :: t).map BertMatch.score)))).map Prod.fst).Nodup := by
      rw [List.map_map]
      have hcomp : (Prod.fst ∘ fun m : BertMatch => (m.statute_id,
          m.score / pyMaxQ ((m0 :: t).map BertMatch.score))) = BertMatch.statute_id := by
        funext m
        rfl
      rw [hcomp]
      exact hnd
    rw [dictOfList_eq_self _ hkeys]
    constructor
    · intro p hp
      rcases List.mem_map.mp hp with ⟨mm, hmm, hmp⟩
      rw [← hmp]
      constructor
      · exact div_pos (hsc mm hmm) hmaxpos
      · rw [div_le_one hmaxpos]
        exact le_pyMaxQ _ _ (List.mem_map.mpr ⟨mm, hmm, rfl⟩)
    · refine ⟨(mx.statute_id, mx.score / pyMaxQ ((m0 :: t).map BertMatch.score)),
        List.mem_map.mpr ⟨mx, hxmem, rfl⟩, ?_⟩
      show mx.score / pyMaxQ ((m0 :: t).map BertMatch.score) = 1
      rw [hxc]
      exact div_self (ne_of_gt hmaxpos)

/-- C10: for every case text (and every catalog with the data model's
unique-id invariant), each probability map produced inside the pipeline —
`regex_probability_map` over the extractor's hits and
`bert_probability_map` over the mapper's matches — is either empty or has
every value in `(0, 1]` with at least one id mapped to exactly 1.0. -/
theorem C10_pipeline_probability_invariant (text : String) (catalog : List CatalogEntry)
    (hnd : (catalog.map CatalogEntry.id).Nodup) (k : Nat) :
    probInvariant (regex_probability_map (map_statutes_with_regex text)) ∧
    probInvariant (bert_probability_map (map_sections catalog text k)) :=
  ⟨regex_probability_map_invariant _ (map_statutes_counts_pos text)
      (map_statutes_ids_nodup text),
    bert_probability_map_invariant _ (map_sections_scores_pos catalog text k)
      (map_sections_ids_nodup catalog text k hnd)⟩

/-- C10 (witness): the invariant instantiated at the empty text and the
empty catalog (both maps evaluate to the empty map). -/
theorem C10_witness :
    probInvariant (regex_probability_map (map_statutes_with_regex "")) ∧
    probInvariant (bert_probability_map (map_sections [] "" 20)) :=
  C10_pipeline_probability_invariant "" [] List.nodup_nil 20

end LegalTalk
